import Mathlib

/-!
# Verification of the `qmf` filter-bank library

Shallow embedding of the three Rust source files `haar.rs`, `sampling.rs`
and `bands.rs` of the `qmf` repository, together with proofs about the
embedded definitions.

Modelling conventions:

* The generic float element type `T : Float` is embedded as `ℚ`.  Every
  coefficient appearing in the source (`0.5`, `-0.5`, `1.`, `-1.`) and every
  sample value used in the claims is a dyadic rational, for which the
  rational arithmetic coincides with exact `f64` arithmetic; floating-point
  rounding is outside the model.
* Rust iterators are embedded as explicit state passing: an iterator over a
  finite source is a pair of the remaining source list and the sampler
  state, and `next` returns the optional item together with the new pair.
* `collect()` (draining an iterator) is embedded with an explicit fuel
  parameter chosen large enough; sufficiency of the fuel is established by
  the characterisation lemmas below.
* A Rust panic (out-of-bounds index `bands[count]` for `N = 0`) is embedded
  by an `Option` result: `none` models the panic.
* `usize`/`i32` arithmetic in `delay` is embedded on `Int` with explicit
  two's-complement wrapping (`i32` release-mode overflow semantics; debug
  builds panic at the same inputs, and either way the result differs from
  `2 ^ N` as soon as `N ≥ 31`).
-/

/-! ## `haar.rs`: the two-tap filter -/

/-- `HaarFilter<T>` from `haar.rs`: two taps and one sample of memory.
The Rust struct stores `taps : [T; 2]`; the two entries are embedded as the
fields `tap0` and `tap1`. -/
structure HaarFilter where
  prev : ℚ
  tap0 : ℚ
  tap1 : ℚ
  deriving DecidableEq, Repr

/-- `HaarFilter::new(h0, h1)`: taps set from the arguments, `prev = 0`. -/
def HaarFilter.new (h0 h1 : ℚ) : HaarFilter :=
  { prev := 0, tap0 := h0, tap1 := h1 }

/-- `HaarFilter::consume(x)`: returns `taps[0]*x + taps[1]*prev` and stores
`x` into `prev`. -/
def HaarFilter.consume (f : HaarFilter) (x : ℚ) : ℚ × HaarFilter :=
  (f.tap0 * x + f.tap1 * f.prev, { f with prev := x })

/-- Mapping `consume` over a list, threading the filter state (the
element-wise loop of `Band::analysis`, specialised to one filter). -/
def HaarFilter.consumeList (f : HaarFilter) : List ℚ → List ℚ × HaarFilter
  | [] => ([], f)
  | x :: xs =>
    let (y, f1) := f.consume x
    let (ys, f2) := f1.consumeList xs
    (y :: ys, f2)

/-! ## `sampling.rs`: the rate samplers -/

/-- `UpSampler<T>` from `sampling.rs`.  The Rust field `with` (the stuffing
value) is embedded as `fill`. -/
structure UpSampler (α : Type) where
  scale : Nat
  fill : α
  count : Nat
  deriving DecidableEq, Repr

/-- `UpSampler::new(scale, with)`. -/
def UpSampler.new (scale : Nat) (fill : α) : UpSampler α :=
  { scale := scale, fill := fill, count := 0 }

/-- `UpSampler::with_zero(scale)`, with `T::zero()` embedded as `0`. -/
def UpSampler.with_zero (scale : Nat) [Zero α] : UpSampler α :=
  UpSampler.new scale 0

/-- One step of `UpSampling::next` on a finite source: returns the optional
item, the remaining source, and the updated sampler.  Mirrors the source: the
item is the next source element at phase `count % scale = 0` and the fill
value otherwise, and `count` advances exactly when an item was produced.
(The Rust `%` panics when `scale = 0`; lemmas therefore assume
`0 < scale`.) -/
def UpSampling.next (s : UpSampler α) (src : List α) :
    Option α × List α × UpSampler α :=
  if s.count % s.scale = 0 then
    match src with
    | [] => (none, [], s)
    | x :: rest => (some x, rest, { s with count := (s.count + 1) % s.scale })
  else
    (some s.fill, src, { s with count := (s.count + 1) % s.scale })

/-- Pulling an upsampling iterator at most `fuel` times, collecting the
produced items and stopping at the first `none` (the semantics of `collect`
and of the `zip`-driven loops, which pull one item at a time). -/
def UpSampling.runFuel : Nat → UpSampler α → List α → List α × List α × UpSampler α
  | 0, s, src => ([], src, s)
  | fuel + 1, s, src =>
    match UpSampling.next s src with
    | (none, src1, s1) => ([], src1, s1)
    | (some x, src1, s1) =>
      let (ys, src2, s2) := UpSampling.runFuel fuel s1 src1
      (x :: ys, src2, s2)

/-- Fuel that always suffices to drain an upsampling iterator (shown by
`UpSampling.runFuel_stable`). -/
def UpSampling.fuelNeed (s : UpSampler α) (src : List α) : Nat :=
  s.scale * src.length + (s.scale - s.count % s.scale) % s.scale + 1

/-- Draining an upsampling iterator to exhaustion: items produced, leftover
source, final sampler state. -/
def UpSampling.upRun (s : UpSampler α) (src : List α) :
    List α × List α × UpSampler α :=
  UpSampling.runFuel (UpSampling.fuelNeed s src) s src

/-- The number of items the upsampled stream produces before exhaustion. -/
def UpSampling.upLen (s : UpSampler α) (src : List α) : Nat :=
  (UpSampling.upRun s src).1.length

/-- `DownSampler` from `sampling.rs`. -/
structure DownSampler where
  scale : Nat
  count : Nat
  deriving DecidableEq, Repr

/-- `DownSampler::new(scale)`. -/
def DownSampler.new (scale : Nat) : DownSampler :=
  { scale := scale, count := 0 }

/-- The `for _ in 0..scale` loop inside `DownSampling::next`: `n` remaining
loop iterations, the pending result `ret`, the remaining source, and the
phase counter.  Each iteration pulls one source element (breaking when the
source is exhausted), records it in `ret` if the phase is `0`, and advances
the phase mod `scale`. -/
def DownSampling.downLoop (scale : Nat) :
    Nat → Option α → List α → Nat → Option α × List α × Nat
  | 0, ret, src, count => (ret, src, count)
  | _ + 1, ret, [], count => (ret, [], count)
  | n + 1, ret, x :: rest, count =>
    DownSampling.downLoop scale n (if count = 0 then some x else ret) rest
      ((count + 1) % scale)

/-- `DownSampling::next` on a finite source. -/
def DownSampling.next (s : DownSampler) (src : List α) :
    Option α × List α × DownSampler :=
  let (ret, src1, count1) := DownSampling.downLoop s.scale s.scale none src s.count
  (ret, src1, { s with count := count1 })

/-- Pulling a downsampling iterator at most `fuel` times, stopping at the
first `none` (the semantics of `collect`). -/
def DownSampling.runFuel : Nat → DownSampler → List α → List α × DownSampler
  | 0, s, _ => ([], s)
  | fuel + 1, s, src =>
    match DownSampling.next s src with
    | (none, _, s1) => ([], s1)
    | (some x, src1, s1) =>
      let (ys, s2) := DownSampling.runFuel fuel s1 src1
      (x :: ys, s2)

/-- Draining a downsampling iterator to exhaustion.  Each productive `next`
consumes at least one source element, so `src.length + 1` pulls always
suffice (established by `DownSampling.run_spec`). -/
def DownSampling.run (s : DownSampler) (src : List α) : List α × DownSampler :=
  DownSampling.runFuel (src.length + 1) s src

/-! ## `bands.rs`: one stage -/

/-- `Band<T>` from `bands.rs`: four filters and four samplers. -/
structure Band where
  in_lowpass_filter : HaarFilter
  in_highpass_filter : HaarFilter
  out_lowpass_filter : HaarFilter
  out_highpass_filter : HaarFilter
  low_upsampler : UpSampler ℚ
  low_downsampler : DownSampler
  high_upsampler : UpSampler ℚ
  high_downsampler : DownSampler
  deriving DecidableEq, Repr

/-- `Band::new()` with the Haar analysis/synthesis coefficients from the
source: `(0.5, 0.5)`, `(-0.5, 0.5)`, `(1, 1)`, `(1, -1)`. -/
def Band.new : Band :=
  { in_lowpass_filter := HaarFilter.new (1 / 2) (1 / 2)
    in_highpass_filter := HaarFilter.new (-(1 / 2)) (1 / 2)
    out_lowpass_filter := HaarFilter.new 1 1
    out_highpass_filter := HaarFilter.new 1 (-1)
    low_upsampler := UpSampler.with_zero 2
    low_downsampler := DownSampler.new 2
    high_upsampler := UpSampler.with_zero 2
    high_downsampler := DownSampler.new 2 }

/-- The `zip(low.iter_mut(), high.iter_mut())` loop of `Band::analysis`:
both input filters consume the same element stream, element-wise in input
order, threading both filter states. -/
def Band.analysisFilter (fl fh : HaarFilter) :
    List ℚ → List ℚ × List ℚ × HaarFilter × HaarFilter
  | [] => ([], [], fl, fh)
  | x :: xs =>
    let (l, fl1) := fl.consume x
    let (h, fh1) := fh.consume x
    let (ls, hs, fl2, fh2) := Band.analysisFilter fl1 fh1 xs
    (l :: ls, h :: hs, fl2, fh2)

/-- `Band::analysis`: filter two copies of the input with the analysis
filters, then drain each through its downsampler. -/
def Band.analysis (b : Band) (xs : List ℚ) : (List ℚ × List ℚ) × Band :=
  let (ls, hs, fl, fh) := Band.analysisFilter b.in_lowpass_filter b.in_highpass_filter xs
  let (low, ld) := DownSampling.run b.low_downsampler ls
  let (high, hd) := DownSampling.run b.high_downsampler hs
  ((low, high),
    { b with
      in_lowpass_filter := fl
      in_highpass_filter := fh
      low_downsampler := ld
      high_downsampler := hd })

/-- The `zip(zip(low_up, high_up), out.iter_mut())` loop of
`Band::synthesis`.  Per iteration the low upsampling iterator is pulled
first, then (only if it produced) the high one, then (only if both
produced) one output slot is overwritten with the sum of the two synthesis
filters' outputs.  The loop therefore stops at the first exhausted stream,
having advanced exactly the iterators it pulled; output slots beyond the
written prefix keep their previous contents. -/
def Band.synthLoop :
    List ℚ → UpSampler ℚ → List ℚ → UpSampler ℚ → List ℚ → HaarFilter → HaarFilter →
      List ℚ × UpSampler ℚ × UpSampler ℚ × HaarFilter × HaarFilter
  | out, ls, lsrc, hs, hsrc, fl, fh =>
    match UpSampling.next ls lsrc with
    | (none, _, ls1) => (out, ls1, hs, fl, fh)
    | (some l, lsrc1, ls1) =>
      match UpSampling.next hs hsrc with
      | (none, _, hs1) => (out, ls1, hs1, fl, fh)
      | (some h, hsrc1, hs1) =>
        match out with
        | [] => ([], ls1, hs1, fl, fh)
        | _ :: rest =>
          let (yl, fl1) := fl.consume l
          let (yh, fh1) := fh.consume h
          let (rest1, st) := Band.synthLoop rest ls1 lsrc1 hs1 hsrc1 fl1 fh1
          ((yl + yh) :: rest1, st)

/-- `Band::synthesis(low, high, out)`: upsample `low` and `high` by the
band's upsamplers, filter with the synthesis filters, and sum element-wise
into `out` (in place; the returned list is the new contents of `out`). -/
def Band.synthesis (b : Band) (low high out : List ℚ) : List ℚ × Band :=
  let (out1, ls, hs, fl, fh) :=
    Band.synthLoop out b.low_upsampler low b.high_upsampler high
      b.out_lowpass_filter b.out_highpass_filter
  (out1,
    { b with
      low_upsampler := ls
      high_upsampler := hs
      out_lowpass_filter := fl
      out_highpass_filter := fh })

/-! ## `bands.rs`: the bank -/

/-- `Bands<T, N>`: the stage array, embedded as a list of length `N`. -/
structure Bands where
  bands : List Band
  deriving DecidableEq, Repr

/-- `Bands::new()` for band count `N`: `N` fresh stages. -/
def Bands.new (N : Nat) : Bands :=
  { bands := List.replicate N Band.new }

/-- `Bands::process_band`, recursing over the remaining stages.  At level
`count` the head band is `self.bands[count]` and the remaining list has
length `N - count`, so the Rust guard `count + 1 >= N` is exactly "no
further stage remains"; an empty list at the top call is the out-of-bounds
`self.bands[count]` panic of `N = 0`, embedded as `none`.  The callback is a
state-passing function `cb : σ → buffer → band index → buffer × σ`
(mirroring the `FnMut` closure); it runs on the deepest low band first,
then on each level's high band while unwinding, before that level's
synthesis. -/
def Bands.processList (cb : σ → List ℚ → Nat → List ℚ × σ) :
    List Band → Nat → σ → List ℚ → Option (List ℚ × List Band × σ)
  | [], _, _, _ => none
  | band :: rest, count, s, buffer =>
    let ((low, high), band1) := band.analysis buffer
    match rest with
    | [] =>
      let (low1, s1) := cb s low (count + 1)
      let (high1, s2) := cb s1 high count
      let (out, band2) := band1.synthesis low1 high1 buffer
      some (out, [band2], s2)
    | r :: rs =>
      match Bands.processList cb (r :: rs) (count + 1) s low with
      | none => none
      | some (low1, rest1, s1) =>
        let (high1, s2) := cb s1 high count
        let (out, band2) := band1.synthesis low1 high1 buffer
        some (out, band2 :: rest1, s2)

/-- `Bands::process(buffer, closure)`: the public entry point, starting the
recursion at level `0`.  Returns the new buffer contents, the new bank and
the final callback state; `none` models the `N = 0` panic. -/
def Bands.process (cb : σ → List ℚ → Nat → List ℚ × σ) (b : Bands)
    (buffer : List ℚ) (s : σ) : Option (List ℚ × Bands × σ) :=
  match Bands.processList cb b.bands 0 s buffer with
  | none => none
  | some (out, bl, s1) => some (out, { bands := bl }, s1)

/-- Two's-complement wrapping of an integer into `i32`. -/
def wrapI32 (x : Int) : Int :=
  (x + 2 ^ 31) % 2 ^ 32 - 2 ^ 31

/-- `i32 as usize` on a 64-bit target: sign-extend and reinterpret. -/
def i32AsUsize (x : Int) : Nat :=
  ((x % 2 ^ 64).toNat)

/-- `Bands::delay()`, i.e. `2_i32.pow(N as u32) as usize`, with release-mode
wrapping semantics for the `i32` overflow (`N as u32` also wraps).  In debug
builds the same inputs (`N ≥ 31`) panic instead; either way the result is
`2 ^ N` only for `N ≤ 30`. -/
def Bands.delay (b : Bands) : Nat :=
  i32AsUsize (wrapI32 ((2 : Int) ^ (b.bands.length % 2 ^ 32)))

/-! ## Callback instances and specification-side helpers -/

/-- The no-op callback of the claims: returns the band buffer unchanged. -/
def noopcb : Unit → List ℚ → Nat → List ℚ × Unit :=
  fun _ buf _ => (buf, ())

/-- The index-recording callback: returns the buffer unchanged and appends
the band index to the log. -/
def logcb : List Nat → List ℚ → Nat → List ℚ × List Nat :=
  fun log buf i => (buf, log ++ [i])

/-- Pure description of decimation: keep an element exactly when the running
phase counter is `0`, advancing the counter mod `scale` per element. -/
def dsKeep (scale : Nat) : Nat → List α → List α
  | _, [] => []
  | count, x :: rest =>
    if count = 0 then x :: dsKeep scale ((count + 1) % scale) rest
    else dsKeep scale ((count + 1) % scale) rest

/-- Advancing a phase counter mod `scale` once per consumed element. -/
def phaseAdv (scale : Nat) : Nat → Nat → Nat
  | count, 0 => count
  | count, u + 1 => phaseAdv scale ((count + 1) % scale) u

/-- The pending `ret` value after folding a list through the down-sampling
loop: the last element seen at phase `0`, if any. -/
def lastKept (scale : Nat) : Nat → Option α → List α → Option α
  | _, ret, [] => ret
  | count, ret, x :: rest =>
    lastKept scale ((count + 1) % scale) (if count = 0 then some x else ret) rest

/-- The interleaved output of one synthesis pass over paired low/high bands
with fresh synthesis state: blocks `l + h, l - h`. -/
def blockMap : List ℚ → List ℚ → List ℚ
  | x :: ls, y :: hs => (x + y) :: (x - y) :: blockMap ls hs
  | _, _ => []

/-- A stage after it has settled on a constant input stream of value `c`:
like `Band.new` but with the analysis filters' memories holding `c`. -/
def settledBand (c : ℚ) : Band :=
  { Band.new with
    in_lowpass_filter := { prev := c, tap0 := 1 / 2, tap1 := 1 / 2 }
    in_highpass_filter := { prev := c, tap0 := -(1 / 2), tap1 := 1 / 2 } }

/-- The descending index list `[c + k, ..., c + 1, c]` in which the callback
fires: deepest (residual) level first. -/
def descRange (c : Nat) : Nat → List Nat
  | 0 => [c]
  | k + 1 => (c + k + 1) :: descRange c k

/-! ## Lemmas: the down-sampling loop -/

lemma downLoop_eq (scale : Nat) :
    ∀ (n : Nat) (src : List α) (ret : Option α) (count : Nat),
      DownSampling.downLoop scale n ret src count =
        (lastKept scale count ret (src.take n), src.drop n,
          phaseAdv scale count (min n src.length)) := by
  intro n
  induction n with
  | zero => intro src ret count; simp [DownSampling.downLoop, lastKept, phaseAdv]
  | succ n ih =>
    intro src ret count
    cases src with
    | nil => simp [DownSampling.downLoop, lastKept, phaseAdv]
    | cons x rest =>
      rw [DownSampling.downLoop, ih]
      simp only [List.take_succ_cons, List.drop_succ_cons, List.length_cons, lastKept,
        Nat.succ_min_succ, phaseAdv]

lemma lastKept_eq_foldl (scale : Nat) :
    ∀ (src : List α) (count : Nat) (ret : Option α),
      lastKept scale count ret src =
        (dsKeep scale count src).foldl (fun _ x => some x) ret := by
  intro src
  induction src with
  | nil => intro count ret; simp [lastKept, dsKeep]
  | cons x rest ih =>
    intro count ret
    by_cases h : count = 0 <;> simp [lastKept, dsKeep, h, ih]

lemma dsKeep_eq_nil (scale : Nat) :
    ∀ (src : List α) (count : Nat), 1 ≤ count → count + src.length ≤ scale →
      dsKeep scale count src = [] := by
  intro src
  induction src with
  | nil => intro count _ _; rfl
  | cons x rest ih =>
    intro count h1 h2
    have hc : ¬ count = 0 := by omega
    rw [dsKeep, if_neg hc]
    rcases Nat.lt_or_ge (count + 1) scale with hlt | hge
    · rw [Nat.mod_eq_of_lt hlt]
      exact ih (count + 1) (by omega) (by simp at h2 ⊢; omega)
    · have : rest = [] := by
        have := rest.length_cons x
        apply List.length_eq_zero.mp
        omega
      subst this
      rfl

lemma dsKeep_length_le_one (scale : Nat) :
    ∀ (src : List α) (count : Nat), count < scale → src.length ≤ scale →
      (dsKeep scale count src).length ≤ 1 := by
  intro src
  induction src with
  | nil => intro count _ _; simp [dsKeep]
  | cons x rest ih =>
    intro count hc hl
    by_cases h : count = 0
    · subst h
      rw [dsKeep, if_pos rfl]
      rcases Nat.lt_or_ge 1 scale with hs | hs
      · rw [Nat.mod_eq_of_lt hs, dsKeep_eq_nil scale rest 1 le_rfl (by simp at hl; omega)]
        simp
      · have hs1 : scale = 1 := by omega
        have : rest = [] := by
          apply List.length_eq_zero.mp
          have := List.length_cons x rest ▸ hl
          omega
        subst this
        simp [dsKeep]
    · rw [dsKeep, if_neg h]
      exact ih ((count + 1) % scale) (Nat.mod_lt _ (by omega)) (by simp at hl; omega)

lemma dsKeep_append (scale : Nat) :
    ∀ (a b : List α) (count : Nat),
      dsKeep scale count (a ++ b) =
        dsKeep scale count a ++ dsKeep scale (phaseAdv scale count a.length) b := by
  intro a
  induction a with
  | nil => intro b count; simp [dsKeep, phaseAdv]
  | cons x rest ih =>
    intro b count
    by_cases h : count = 0 <;>
      simp [dsKeep, h, ih, phaseAdv, List.length_cons]

lemma phaseAdv_eq (scale : Nat) (hs : 0 < scale) :
    ∀ (u count : Nat), count < scale → phaseAdv scale count u = (count + u) % scale := by
  intro u
  induction u with
  | zero => intro count hc; simp [phaseAdv, Nat.mod_eq_of_lt hc]
  | succ u ih =>
    intro count hc
    rw [phaseAdv, ih ((count + 1) % scale) (Nat.mod_lt _ hs), Nat.mod_add_mod]
    congr 1
    omega

lemma dsKeep_ne_nil (scale : Nat) :
    ∀ (a : List α) (count : Nat), 1 ≤ count → count < scale → scale < count + a.length →
      dsKeep scale count a ≠ [] := by
  intro a
  induction a with
  | nil => intro count _ _ h; simp at h; omega
  | cons x rest ih =>
    intro count h1 hc hlen
    have h0 : ¬ count = 0 := by omega
    rw [dsKeep, if_neg h0]
    rcases Nat.lt_or_ge (count + 1) scale with hlt | hge
    · rw [Nat.mod_eq_of_lt hlt]
      exact ih (count + 1) (by omega) hlt (by simp at hlen; omega)
    · have hEq : count + 1 = scale := by omega
      have hmod : (count + 1) % scale = 0 := by rw [hEq, Nat.mod_self]
      rw [hmod]
      have : rest ≠ [] := by
        intro hnil
        subst hnil
        simp at hlen
        omega
      cases rest with
      | nil => exact absurd rfl this
      | cons y t => rw [dsKeep, if_pos rfl]; simp

lemma downNext_eq (s : DownSampler) (src : List α) :
    DownSampling.next s src =
      (lastKept s.scale s.count none (src.take s.scale), src.drop s.scale,
        ⟨s.scale, phaseAdv s.scale s.count (min s.scale src.length)⟩) := by
  rw [DownSampling.next, downLoop_eq]

lemma down_runFuel_succ_none {s : DownSampler} {src src1 : List α} {s1 : DownSampler}
    (h : DownSampling.next s src = (none, src1, s1)) (fuel : Nat) :
    DownSampling.runFuel (fuel + 1) s src = ([], s1) := by
  rw [DownSampling.runFuel, h]

lemma down_runFuel_succ_some {s : DownSampler} {src src1 : List α} {s1 : DownSampler} {x : α}
    (h : DownSampling.next s src = (some x, src1, s1)) (fuel : Nat) :
    DownSampling.runFuel (fuel + 1) s src =
      (x :: (DownSampling.runFuel fuel s1 src1).1, (DownSampling.runFuel fuel s1 src1).2) := by
  rw [DownSampling.runFuel, h]

lemma down_runFuel_spec (scale : Nat) (hs : 0 < scale) :
    ∀ (fuel : Nat) (src : List α) (count : Nat), src.length < fuel → count < scale →
      DownSampling.runFuel fuel ⟨scale, count⟩ src =
        (dsKeep scale count src, ⟨scale, (count + src.length) % scale⟩) := by
  intro fuel
  induction fuel with
  | zero => intro src count h _; omega
  | succ fuel ih =>
    intro src count hlen hc
    have hsplit :
        dsKeep scale count src =
          dsKeep scale count (src.take scale) ++
            dsKeep scale (phaseAdv scale count (src.take scale).length)
              (src.drop scale) := by
      conv_lhs => rw [← List.take_append_drop scale src, dsKeep_append]
    have htl : (src.take scale).length = min scale src.length := List.length_take ..
    have hle1 : (dsKeep scale count (src.take scale)).length ≤ 1 :=
      dsKeep_length_le_one scale (src.take scale) count hc (by rw [htl]; omega)
    have hnext := downNext_eq (⟨scale, count⟩ : DownSampler) src
    rw [lastKept_eq_foldl] at hnext
    rcases hd : dsKeep scale count (src.take scale) with _ | ⟨x, d⟩
    · -- no element of the consumed prefix is at phase 0, so the source was short
      rw [hd] at hnext
      simp only [List.foldl_nil] at hnext
      have hshort : src.length ≤ scale := by
        by_contra hgt
        have hfull : (src.take scale).length = scale := by rw [htl]; omega
        rcases Nat.eq_zero_or_pos count with h0 | h1
        · subst h0
          rcases htk : src.take scale with _ | ⟨y, t⟩
          · rw [htk] at hfull; simp at hfull; omega
          · rw [htk] at hd; rw [dsKeep, if_pos rfl] at hd; exact List.cons_ne_nil _ _ hd
        · exact dsKeep_ne_nil scale (src.take scale) count h1 hc (by omega) hd
      have hdrop : src.drop scale = [] := by
        apply List.eq_nil_of_length_eq_zero
        rw [List.length_drop]
        omega
      rw [down_runFuel_succ_none hnext]
      rw [hsplit, hd, hdrop]
      simp only [dsKeep, List.append_nil, List.nil_append]
      have humin : min scale src.length = src.length := by omega
      rw [humin, phaseAdv_eq scale hs _ _ hc]
    · -- the prefix contributed exactly one kept element
      have hxd : d = [] := by
        have h1 := hd ▸ hle1
        simp only [List.length_cons] at h1
        exact List.eq_nil_of_length_eq_zero (by omega)
      subst hxd
      rw [hd] at hnext
      simp only [List.foldl_cons, List.foldl_nil] at hnext
      have hne : src ≠ [] := by
        intro h0
        subst h0
        simp [dsKeep] at hd
      have hlen1 : 1 ≤ src.length := by
        cases src with
        | nil => exact absurd rfl hne
        | cons a t => simp
      rw [down_runFuel_succ_some hnext]
      rw [phaseAdv_eq scale hs _ _ hc] at *
      have hrec := ih (src.drop scale) ((count + min scale src.length) % scale)
        (by rw [List.length_drop]; omega) (Nat.mod_lt _ hs)
      rw [hrec, hsplit, hd, htl]
      have hfin :
          ((count + min scale src.length) % scale + (src.drop scale).length) % scale =
            (count + src.length) % scale := by
        rw [Nat.mod_add_mod, List.length_drop]
        congr 1
        omega
      rw [hfin]
      rfl

lemma dsKeep_two_length :
    ∀ (xs : List α), (dsKeep 2 0 xs).length = (xs.length + 1) / 2 ∧
      (dsKeep 2 1 xs).length = xs.length / 2 := by
  intro xs
  induction xs with
  | nil => simp [dsKeep]
  | cons x rest ih =>
    constructor
    · rw [dsKeep, if_pos rfl]
      rw [(by norm_num : (0 + 1) % 2 = 1)]
      simp only [List.length_cons, ih.2]
      omega
    · rw [dsKeep, if_neg one_ne_zero]
      rw [(by norm_num : (1 + 1) % 2 = 0)]
      simp only [List.length_cons, ih.1]

lemma dsKeep_two_replicate (c : α) :
    ∀ k, dsKeep 2 0 (List.replicate (2 * k) c) = List.replicate k c := by
  intro k
  induction k with
  | zero => rfl
  | succ k ih =>
    have h2 : 2 * (k + 1) = 2 * k + 1 + 1 := by ring
    rw [h2, List.replicate_succ, List.replicate_succ]
    rw [dsKeep, if_pos rfl, (by norm_num : (0 + 1) % 2 = 1)]
    rw [dsKeep, if_neg one_ne_zero, (by norm_num : (1 + 1) % 2 = 0)]
    rw [ih, List.replicate_succ]

/-! ## Lemmas: the up-sampling iterator -/

lemma up_runFuel_succ_none {s : UpSampler α} {src src1 : List α} {s1 : UpSampler α}
    (h : UpSampling.next s src = (none, src1, s1)) (fuel : Nat) :
    UpSampling.runFuel (fuel + 1) s src = ([], src1, s1) := by
  rw [UpSampling.runFuel, h]

lemma up_runFuel_succ_some {s : UpSampler α} {src src1 : List α} {s1 : UpSampler α} {x : α}
    (h : UpSampling.next s src = (some x, src1, s1)) (fuel : Nat) :
    UpSampling.runFuel (fuel + 1) s src =
      (x :: (UpSampling.runFuel fuel s1 src1).1, (UpSampling.runFuel fuel s1 src1).2.1,
        (UpSampling.runFuel fuel s1 src1).2.2) := by
  rw [UpSampling.runFuel, h]

lemma upNext_scale_fill (s : UpSampler α) (src : List α) :
    (UpSampling.next s src).2.2.scale = s.scale ∧
      (UpSampling.next s src).2.2.fill = s.fill := by
  by_cases h : s.count % s.scale = 0 <;> cases src <;> simp [UpSampling.next, h]

lemma upNext_fuelNeed_lt {s : UpSampler α} {src src1 : List α} {s1 : UpSampler α} {x : α}
    (hs : 0 < s.scale) (h : UpSampling.next s src = (some x, src1, s1)) :
    UpSampling.fuelNeed s1 src1 < UpSampling.fuelNeed s src := by
  have hsc : s1.scale = s.scale := by
    have := (upNext_scale_fill s src).1
    rw [h] at this
    exact this
  rw [UpSampling.next.eq_def] at h
  by_cases h0 : s.count % s.scale = 0
  · rw [if_pos h0] at h
    cases src with
    | nil => simp at h
    | cons y rest =>
      simp only [Prod.mk.injEq] at h
      obtain ⟨hx, hsrc1, hs1⟩ := h
      subst hsrc1
      subst hs1
      unfold UpSampling.fuelNeed
      dsimp only
      simp only [List.length_cons, h0]
      have hp1 : (s.scale - (s.count + 1) % s.scale % s.scale) % s.scale < s.scale :=
        Nat.mod_lt _ hs
      have hd : s.scale * (rest.length + 1) = s.scale * rest.length + s.scale := by ring
      simp only [Nat.sub_zero, Nat.mod_self]
      omega
  · rw [if_neg h0] at h
    simp only [Prod.mk.injEq] at h
    obtain ⟨hx, hsrc1, hs1⟩ := h
    subst hsrc1
    subst hs1
    unfold UpSampling.fuelNeed
    dsimp only
    -- the pending fill count decreases by one
    have hr : 1 ≤ s.count % s.scale := Nat.one_le_iff_ne_zero.mpr h0
    have hrlt : s.count % s.scale < s.scale := Nat.mod_lt _ hs
    have hc1 : (s.count + 1) % s.scale = (s.count % s.scale + 1) % s.scale := by
      conv_lhs => rw [← Nat.mod_add_mod]
    have hmm : (s.count + 1) % s.scale % s.scale = (s.count + 1) % s.scale :=
      Nat.mod_mod_of_dvd _ dvd_rfl
    rcases Nat.lt_or_ge (s.count % s.scale + 1) s.scale with hlt | hge
    · have : (s.count + 1) % s.scale = s.count % s.scale + 1 := by
        rw [hc1, Nat.mod_eq_of_lt hlt]
      rw [hmm, this]
      have e1 : (s.scale - (s.count % s.scale + 1)) % s.scale =
          s.scale - (s.count % s.scale + 1) := Nat.mod_eq_of_lt (by omega)
      have e2 : (s.scale - s.count % s.scale) % s.scale =
          s.scale - s.count % s.scale := Nat.mod_eq_of_lt (by omega)
      omega
    · have heq : s.count % s.scale + 1 = s.scale := by omega
      have : (s.count + 1) % s.scale = 0 := by
        rw [hc1, heq, Nat.mod_self]
      rw [hmm, this]
      have e2 : (s.scale - s.count % s.scale) % s.scale =
          s.scale - s.count % s.scale := Nat.mod_eq_of_lt (by omega)
      simp only [Nat.sub_zero, Nat.mod_self]
      omega

lemma up_runFuel_stable :
    ∀ (fuel : Nat) {s : UpSampler α} {src : List α}, 0 < s.scale → ∀ (f2 : Nat),
      UpSampling.fuelNeed s src ≤ fuel → UpSampling.fuelNeed s src ≤ f2 →
      UpSampling.runFuel fuel s src = UpSampling.runFuel f2 s src := by
  intro fuel
  induction fuel with
  | zero =>
    intro s src hs f2 h1 h2
    unfold UpSampling.fuelNeed at h1
    omega
  | succ fuel ih =>
    intro s src hs f2 h1 h2
    have hf2 : ∃ f3, f2 = f3 + 1 := by
      refine ⟨f2 - 1, ?_⟩
      unfold UpSampling.fuelNeed at h2
      omega
    obtain ⟨f3, rfl⟩ := hf2
    rcases hn : UpSampling.next s src with ⟨r, src1, s1⟩
    cases r with
    | none => rw [up_runFuel_succ_none hn, up_runFuel_succ_none hn]
    | some x =>
      rw [up_runFuel_succ_some hn, up_runFuel_succ_some hn]
      have hsc : 0 < s1.scale := by
        have := (upNext_scale_fill s src).1
        rw [hn] at this
        simp only at this
        omega
      have hdec := upNext_fuelNeed_lt hs hn
      rw [ih hsc f3 (by omega) (by omega)]

lemma upRun_pos_fuel (s : UpSampler α) (src : List α) :
    ∃ k, UpSampling.fuelNeed s src = k + 1 := by
  refine ⟨UpSampling.fuelNeed s src - 1, ?_⟩
  unfold UpSampling.fuelNeed
  omega

lemma upRun_none {s : UpSampler α} {src src1 : List α} {s1 : UpSampler α}
    (h : UpSampling.next s src = (none, src1, s1)) :
    UpSampling.upRun s src = ([], src1, s1) := by
  obtain ⟨k, hk⟩ := upRun_pos_fuel s src
  rw [UpSampling.upRun, hk, up_runFuel_succ_none h]

lemma upRun_some {s : UpSampler α} {src src1 : List α} {s1 : UpSampler α} {x : α}
    (hs : 0 < s.scale) (h : UpSampling.next s src = (some x, src1, s1)) :
    UpSampling.upRun s src =
      (x :: (UpSampling.upRun s1 src1).1, (UpSampling.upRun s1 src1).2.1,
        (UpSampling.upRun s1 src1).2.2) := by
  obtain ⟨k, hk⟩ := upRun_pos_fuel s src
  have hsc : 0 < s1.scale := by
    have := (upNext_scale_fill s src).1
    rw [h] at this
    simp only at this
    omega
  have hdec := upNext_fuelNeed_lt hs h
  have hstable : UpSampling.runFuel k s1 src1 = UpSampling.upRun s1 src1 :=
    up_runFuel_stable k hsc (UpSampling.fuelNeed s1 src1) (by omega) le_rfl
  rw [UpSampling.upRun, hk, up_runFuel_succ_some h, hstable]

lemma upLen_none {s : UpSampler α} {src src1 : List α} {s1 : UpSampler α}
    (h : UpSampling.next s src = (none, src1, s1)) :
    UpSampling.upLen s src = 0 := by
  rw [UpSampling.upLen, upRun_none h]
  rfl

lemma upLen_some {s : UpSampler α} {src src1 : List α} {s1 : UpSampler α} {x : α}
    (hs : 0 < s.scale) (h : UpSampling.next s src = (some x, src1, s1)) :
    UpSampling.upLen s src = UpSampling.upLen s1 src1 + 1 := by
  rw [UpSampling.upLen, upRun_some hs h]
  simp [UpSampling.upLen]

/-! ## Lemmas: the synthesis loop stops at the shortest stream -/

lemma synthLoop_low_exhausted {us : UpSampler ℚ} {lsrc lsrc1 : List ℚ} {us1 : UpSampler ℚ}
    (out : List ℚ) (vs : UpSampler ℚ) (hsrc : List ℚ) (fl fh : HaarFilter)
    (h : UpSampling.next us lsrc = (none, lsrc1, us1)) :
    Band.synthLoop out us lsrc vs hsrc fl fh = (out, us1, vs, fl, fh) := by
  rw [Band.synthLoop.eq_def]
  dsimp only
  rw [h]

lemma synthLoop_high_exhausted {us : UpSampler ℚ} {lsrc lsrc1 : List ℚ} {us1 : UpSampler ℚ}
    {l : ℚ} {vs : UpSampler ℚ} {hsrc hsrc1 : List ℚ} {vs1 : UpSampler ℚ}
    (out : List ℚ) (fl fh : HaarFilter)
    (h1 : UpSampling.next us lsrc = (some l, lsrc1, us1))
    (h2 : UpSampling.next vs hsrc = (none, hsrc1, vs1)) :
    Band.synthLoop out us lsrc vs hsrc fl fh = (out, us1, vs1, fl, fh) := by
  rw [Band.synthLoop.eq_def]
  dsimp only
  rw [h1]
  dsimp only
  rw [h2]

lemma synthLoop_out_exhausted {us : UpSampler ℚ} {lsrc lsrc1 : List ℚ} {us1 : UpSampler ℚ}
    {l : ℚ} {vs : UpSampler ℚ} {hsrc hsrc1 : List ℚ} {vs1 : UpSampler ℚ} {hh : ℚ}
    (fl fh : HaarFilter)
    (h1 : UpSampling.next us lsrc = (some l, lsrc1, us1))
    (h2 : UpSampling.next vs hsrc = (some hh, hsrc1, vs1)) :
    Band.synthLoop [] us lsrc vs hsrc fl fh = ([], us1, vs1, fl, fh) := by
  rw [Band.synthLoop.eq_def]
  dsimp only
  rw [h1]
  dsimp only
  rw [h2]

lemma synthLoop_cons {us : UpSampler ℚ} {lsrc lsrc1 : List ℚ} {us1 : UpSampler ℚ}
    {l : ℚ} {vs : UpSampler ℚ} {hsrc hsrc1 : List ℚ} {vs1 : UpSampler ℚ} {hh : ℚ}
    (o : ℚ) (rest : List ℚ) (fl fh : HaarFilter)
    (h1 : UpSampling.next us lsrc = (some l, lsrc1, us1))
    (h2 : UpSampling.next vs hsrc = (some hh, hsrc1, vs1)) :
    Band.synthLoop (o :: rest) us lsrc vs hsrc fl fh =
      (((fl.consume l).1 + (fh.consume hh).1) ::
          (Band.synthLoop rest us1 lsrc1 vs1 hsrc1 (fl.consume l).2 (fh.consume hh).2).1,
        (Band.synthLoop rest us1 lsrc1 vs1 hsrc1 (fl.consume l).2 (fh.consume hh).2).2) := by
  rw [Band.synthLoop.eq_def]
  dsimp only
  rw [h1]
  dsimp only
  rw [h2]

lemma synthLoop_frame :
    ∀ (out : List ℚ) (us : UpSampler ℚ) (lsrc : List ℚ) (vs : UpSampler ℚ) (hsrc : List ℚ)
      (fl fh : HaarFilter), 0 < us.scale → 0 < vs.scale →
      (Band.synthLoop out us lsrc vs hsrc fl fh).1.length = out.length ∧
      (Band.synthLoop out us lsrc vs hsrc fl fh).1.drop
          (min (min (UpSampling.upLen us lsrc) (UpSampling.upLen vs hsrc)) out.length) =
        out.drop
          (min (min (UpSampling.upLen us lsrc) (UpSampling.upLen vs hsrc)) out.length) := by
  intro out
  induction out with
  | nil =>
    intro us lsrc vs hsrc fl fh hu hv
    rcases hn1 : UpSampling.next us lsrc with ⟨r1, lsrc1, us1⟩
    cases r1 with
    | none => rw [synthLoop_low_exhausted [] vs hsrc fl fh hn1]; simp
    | some l =>
      rcases hn2 : UpSampling.next vs hsrc with ⟨r2, hsrc1, vs1⟩
      cases r2 with
      | none => rw [synthLoop_high_exhausted [] fl fh hn1 hn2]; simp
      | some hh => rw [synthLoop_out_exhausted fl fh hn1 hn2]; simp
  | cons o rest ih =>
    intro us lsrc vs hsrc fl fh hu hv
    rcases hn1 : UpSampling.next us lsrc with ⟨r1, lsrc1, us1⟩
    cases r1 with
    | none =>
      have hL := upLen_none hn1
      rw [synthLoop_low_exhausted (o :: rest) vs hsrc fl fh hn1]
      simp [hL]
    | some l =>
      have hu1 : 0 < us1.scale := by
        have := (upNext_scale_fill us lsrc).1
        rw [hn1] at this
        simp only at this
        omega
      have hL := upLen_some hu hn1
      rcases hn2 : UpSampling.next vs hsrc with ⟨r2, hsrc1, vs1⟩
      cases r2 with
      | none =>
        have hH := upLen_none hn2
        rw [synthLoop_high_exhausted (o :: rest) fl fh hn1 hn2]
        simp [hH]
      | some hh =>
        have hv1 : 0 < vs1.scale := by
          have := (upNext_scale_fill vs hsrc).1
          rw [hn2] at this
          simp only at this
          omega
        have hH := upLen_some hv hn2
        rw [synthLoop_cons o rest fl fh hn1 hn2]
        have hIH := ih us1 lsrc1 vs1 hsrc1 (fl.consume l).2 (fh.consume hh).2 hu1 hv1
        rw [hL, hH]
        constructor
        · simp only [List.length_cons, hIH.1]
        · have hmin :
              min (min (UpSampling.upLen us1 lsrc1 + 1) (UpSampling.upLen vs1 hsrc1 + 1))
                  (o :: rest).length =
                min (min (UpSampling.upLen us1 lsrc1) (UpSampling.upLen vs1 hsrc1))
                  rest.length + 1 := by
            simp only [List.length_cons]
            omega
          rw [hmin, List.drop_succ_cons, List.drop_succ_cons]
          exact hIH.2

/-! ## Lemmas: the analysis filters on constant-tailed inputs -/

lemma consumeList_cons (f : HaarFilter) (x : ℚ) (xs : List ℚ) :
    f.consumeList (x :: xs) =
      ((f.tap0 * x + f.tap1 * f.prev) :: ({ f with prev := x }.consumeList xs).1,
        ({ f with prev := x }.consumeList xs).2) := by
  rw [HaarFilter.consumeList]
  dsimp only [HaarFilter.consume]

lemma consumeList_length (f : HaarFilter) :
    ∀ xs, ((f.consumeList xs).1.length = xs.length) := by
  intro xs
  induction xs generalizing f with
  | nil => rfl
  | cons x xs ih => rw [consumeList_cons]; simp [ih]

lemma analysisFilter_eq :
    ∀ (xs : List ℚ) (fl fh : HaarFilter),
      Band.analysisFilter fl fh xs =
        ((fl.consumeList xs).1, (fh.consumeList xs).1,
          (fl.consumeList xs).2, (fh.consumeList xs).2) := by
  intro xs
  induction xs with
  | nil => intro fl fh; rfl
  | cons x xs ih =>
    intro fl fh
    rw [Band.analysisFilter]
    dsimp only [HaarFilter.consume]
    rw [ih, consumeList_cons, consumeList_cons]

lemma consumeList_replicate (c : ℚ) :
    ∀ (k : Nat) (f : HaarFilter),
      f.consumeList (List.replicate (k + 1) c) =
        ((f.tap0 * c + f.tap1 * f.prev) :: List.replicate k (f.tap0 * c + f.tap1 * c),
          { f with prev := c }) := by
  intro k
  induction k with
  | zero =>
    intro f
    rw [List.replicate_succ, List.replicate_zero, consumeList_cons]
    rfl
  | succ k ih =>
    intro f
    rw [List.replicate_succ, consumeList_cons, ih]
    rw [List.replicate_succ]

lemma consumeList_cons_replicate (a c : ℚ) (k : Nat) (f : HaarFilter) :
    f.consumeList (a :: List.replicate (k + 1) c) =
      ((f.tap0 * a + f.tap1 * f.prev) :: (f.tap0 * c + f.tap1 * a) ::
          List.replicate k (f.tap0 * c + f.tap1 * c),
        { f with prev := c }) := by
  rw [consumeList_cons, consumeList_replicate]

lemma down_run_spec (s : DownSampler) (src : List α)
    (hs : 0 < s.scale) (hc : s.count < s.scale) :
    DownSampling.run s src =
      (dsKeep s.scale s.count src, ⟨s.scale, (s.count + src.length) % s.scale⟩) := by
  rcases s with ⟨scale, count⟩
  exact down_runFuel_spec scale hs (src.length + 1) src count (by omega) hc

lemma dsKeep_two_cons_cons (y0 y1 : α) (rest : List α) :
    dsKeep 2 0 (y0 :: y1 :: rest) = y0 :: dsKeep 2 0 rest := by
  rw [dsKeep, if_pos rfl, (show (0 + 1) % 2 = 1 by norm_num),
    dsKeep, if_neg one_ne_zero, (show (1 + 1) % 2 = 0 by norm_num)]

lemma down_run_two_cons_cons (y0 y1 : ℚ) (rest : List ℚ) (hrest : rest.length % 2 = 0) :
    DownSampling.run ⟨2, 0⟩ (y0 :: y1 :: rest) =
      (y0 :: dsKeep 2 0 rest, ⟨2, 0⟩) := by
  rw [down_run_spec _ _ (by norm_num) (by norm_num), dsKeep_two_cons_cons]
  have hcnt : (0 + (y0 :: y1 :: rest).length) % 2 = 0 := by
    simp only [List.length_cons]
    omega
  rw [hcnt]

lemma down_run_two_replicate (c : ℚ) (n : Nat) :
    DownSampling.run ⟨2, 0⟩ (List.replicate (2 * n) c) =
      (List.replicate n c, ⟨2, 0⟩) := by
  rw [down_run_spec _ _ (by norm_num) (by norm_num), dsKeep_two_replicate]
  have hcnt : (0 + (List.replicate (2 * n) c).length) % 2 = 0 := by
    simp only [List.length_replicate]
    omega
  rw [hcnt]

lemma analysis_shape (b : Band) (pl ph a c : ℚ) (q : Nat)
    (h1 : b.in_lowpass_filter = ⟨pl, 1 / 2, 1 / 2⟩)
    (h2 : b.in_highpass_filter = ⟨ph, -(1 / 2), 1 / 2⟩)
    (h3 : b.low_downsampler = ⟨2, 0⟩)
    (h4 : b.high_downsampler = ⟨2, 0⟩) :
    Band.analysis b (a :: List.replicate (2 * q + 1) c) =
      (((1 / 2 * a + 1 / 2 * pl) :: List.replicate q c,
        (-(1 / 2) * a + 1 / 2 * ph) :: List.replicate q 0),
       { b with
         in_lowpass_filter := ⟨c, 1 / 2, 1 / 2⟩
         in_highpass_filter := ⟨c, -(1 / 2), 1 / 2⟩
         low_downsampler := ⟨2, 0⟩
         high_downsampler := ⟨2, 0⟩ }) := by
  have hLf : HaarFilter.consumeList ⟨pl, 1 / 2, 1 / 2⟩ (a :: List.replicate (2 * q + 1) c) =
      ((1 / 2 * a + 1 / 2 * pl) :: (1 / 2 * c + 1 / 2 * a) :: List.replicate (2 * q) c,
        ⟨c, 1 / 2, 1 / 2⟩) := by
    rw [consumeList_cons_replicate]
    rw [show (1 / 2 : ℚ) * c + 1 / 2 * c = c from by ring]
  have hHf : HaarFilter.consumeList ⟨ph, -(1 / 2), 1 / 2⟩ (a :: List.replicate (2 * q + 1) c) =
      ((-(1 / 2) * a + 1 / 2 * ph) :: (-(1 / 2) * c + 1 / 2 * a) :: List.replicate (2 * q) 0,
        ⟨c, -(1 / 2), 1 / 2⟩) := by
    rw [consumeList_cons_replicate]
    rw [show (-(1 / 2) : ℚ) * c + 1 / 2 * c = 0 from by ring]
  unfold Band.analysis
  rw [analysisFilter_eq, h1, h2, h3, h4, hLf, hHf]
  dsimp only
  rw [down_run_two_cons_cons _ _ _ (by simp [List.length_replicate]),
    down_run_two_cons_cons _ _ _ (by simp [List.length_replicate]),
    dsKeep_two_replicate, dsKeep_two_replicate]

lemma analysis_settled (b : Band) (c : ℚ) (n : Nat)
    (h1 : b.in_lowpass_filter = ⟨c, 1 / 2, 1 / 2⟩)
    (h2 : b.in_highpass_filter = ⟨c, -(1 / 2), 1 / 2⟩)
    (h3 : b.low_downsampler = ⟨2, 0⟩)
    (h4 : b.high_downsampler = ⟨2, 0⟩) :
    Band.analysis b (List.replicate (2 * n) c) =
      ((List.replicate n c, List.replicate n 0), b) := by
  rcases b with ⟨f1, f2, f3, f4, u1, d1, u2, d2⟩
  simp only at h1 h2 h3 h4
  subst h1
  subst h2
  subst h3
  subst h4
  cases n with
  | zero =>
    rfl
  | succ nq =>
    have hk : 2 * (nq + 1) = (2 * nq + 1) + 1 := by ring
    have hLf : HaarFilter.consumeList ⟨c, 1 / 2, 1 / 2⟩ (List.replicate (2 * (nq + 1)) c) =
        (List.replicate (2 * (nq + 1)) c, ⟨c, 1 / 2, 1 / 2⟩) := by
      rw [hk, consumeList_replicate]
      rw [show (1 / 2 : ℚ) * c + 1 / 2 * c = c from by ring]
      rw [← List.replicate_succ]
    have hHf : HaarFilter.consumeList ⟨c, -(1 / 2), 1 / 2⟩ (List.replicate (2 * (nq + 1)) c) =
        (List.replicate (2 * (nq + 1)) 0, ⟨c, -(1 / 2), 1 / 2⟩) := by
      rw [hk, consumeList_replicate]
      rw [show (-(1 / 2) : ℚ) * c + 1 / 2 * c = 0 from by ring]
      rw [← List.replicate_succ]
    unfold Band.analysis
    rw [analysisFilter_eq]
    dsimp only
    rw [hLf, hHf]
    dsimp only
    rw [down_run_two_replicate,
      show (List.replicate (2 * (nq + 1)) (0 : ℚ)) = List.replicate (2 * (nq + 1)) (0 : ℚ) from rfl,
      down_run_two_replicate]

/-! ## Lemmas: synthesis with fresh output state -/

lemma blockMap_length :
    ∀ (l h : List ℚ), h.length = l.length → (blockMap l h).length = 2 * l.length := by
  intro l
  induction l with
  | nil =>
    intro h hh
    have : h = [] := List.eq_nil_of_length_eq_zero (by simpa using hh)
    subst this
    rfl
  | cons x ls ih =>
    intro h hh
    cases h with
    | nil => simp at hh
    | cons y hs =>
      rw [blockMap]
      simp only [List.length_cons] at hh ⊢
      rw [ih hs (by omega)]
      omega

lemma blockMap_append :
    ∀ (p pq l2 h2 : List ℚ), pq.length = p.length →
      blockMap (p ++ l2) (pq ++ h2) = blockMap p pq ++ blockMap l2 h2 := by
  intro p
  induction p with
  | nil =>
    intro pq l2 h2 hh
    have : pq = [] := List.eq_nil_of_length_eq_zero (by simpa using hh)
    subst this
    simp [blockMap]
  | cons x ls ih =>
    intro pq l2 h2 hh
    cases pq with
    | nil => simp at hh
    | cons y hs =>
      have hh2 : hs.length = ls.length := by simpa using hh
      rw [List.cons_append, List.cons_append, blockMap, blockMap, ih hs l2 h2 hh2]
      rfl

lemma blockMap_replicate (c : ℚ) :
    ∀ j, blockMap (List.replicate j c) (List.replicate j 0) = List.replicate (2 * j) c := by
  intro j
  induction j with
  | zero => rfl
  | succ j ih =>
    rw [List.replicate_succ, List.replicate_succ, blockMap, ih]
    rw [show c + 0 = c from by ring, show c - 0 = c from by ring]
    rw [show 2 * (j + 1) = (2 * j) + 1 + 1 from by ring]
    rw [List.replicate_succ, List.replicate_succ]

lemma synthLoop_blocks :
    ∀ (l h out : List ℚ), h.length = l.length → out.length = 2 * l.length →
      Band.synthLoop out ⟨2, 0, 0⟩ l ⟨2, 0, 0⟩ h ⟨0, 1, 1⟩ ⟨0, 1, -1⟩ =
        (blockMap l h, ⟨2, 0, 0⟩, ⟨2, 0, 0⟩, ⟨0, 1, 1⟩, ⟨0, 1, -1⟩) := by
  intro l
  induction l with
  | nil =>
    intro h out hh hout
    have h0 : h = [] := List.eq_nil_of_length_eq_zero (by simpa using hh)
    have o0 : out = [] := List.eq_nil_of_length_eq_zero (by simpa using hout)
    subst h0
    subst o0
    rfl
  | cons x ls ih =>
    intro h out hh hout
    rcases h with _ | ⟨y, hs⟩
    · simp at hh
    rcases out with _ | ⟨o1, out1⟩
    · simp at hout
    rcases out1 with _ | ⟨o2, os⟩
    · simp only [List.length_cons, List.length_nil] at hout; omega
    have hn1 : UpSampling.next (⟨2, 0, 0⟩ : UpSampler ℚ) (x :: ls) =
        (some x, ls, ⟨2, 0, 1⟩) := rfl
    have hn2 : UpSampling.next (⟨2, 0, 0⟩ : UpSampler ℚ) (y :: hs) =
        (some y, hs, ⟨2, 0, 1⟩) := rfl
    rw [synthLoop_cons o1 (o2 :: os) _ _ hn1 hn2]
    have hn3 : UpSampling.next (⟨2, 0, 1⟩ : UpSampler ℚ) ls = (some 0, ls, ⟨2, 0, 0⟩) := rfl
    have hn4 : UpSampling.next (⟨2, 0, 1⟩ : UpSampler ℚ) hs = (some 0, hs, ⟨2, 0, 0⟩) := rfl
    rw [synthLoop_cons o2 os _ _ hn3 hn4]
    dsimp only [HaarFilter.consume]
    have hh2 : hs.length = ls.length := by simpa using hh
    have hout2 : os.length = 2 * ls.length := by
      simp only [List.length_cons] at hout
      omega
    rw [ih hs os hh2 hout2]
    rw [blockMap]
    dsimp only
    rw [show (1 : ℚ) * x + 1 * 0 + (1 * y + -1 * 0) = x + y from by ring,
      show (1 : ℚ) * 0 + 1 * x + (1 * 0 + -1 * y) = x - y from by ring]

lemma synthesis_blocks (b : Band) (l h out : List ℚ)
    (h1 : b.low_upsampler = ⟨2, 0, 0⟩) (h2 : b.high_upsampler = ⟨2, 0, 0⟩)
    (h3 : b.out_lowpass_filter = ⟨0, 1, 1⟩) (h4 : b.out_highpass_filter = ⟨0, 1, -1⟩)
    (hlen : h.length = l.length) (hout : out.length = 2 * l.length) :
    Band.synthesis b l h out = (blockMap l h, b) := by
  rcases b with ⟨f1, f2, f3, f4, u1, d1, u2, d2⟩
  simp only at h1 h2 h3 h4
  subst h1
  subst h2
  subst h3
  subst h4
  unfold Band.synthesis
  rw [synthLoop_blocks l h out hlen hout]

/-! ## Lemmas: unfolding the recursive band processing -/

lemma processList_one {σ : Type} (cb : σ → List ℚ → Nat → List ℚ × σ)
    (count : Nat) (s : σ)
    {band band1 band2 : Band} {low high low1 high1 out buffer : List ℚ}
    {s1 s2 : σ}
    (hA : band.analysis buffer = ((low, high), band1))
    (hc1 : cb s low (count + 1) = (low1, s1))
    (hc2 : cb s1 high count = (high1, s2))
    (hS : band1.synthesis low1 high1 buffer = (out, band2)) :
    Bands.processList cb [band] count s buffer = some (out, [band2], s2) := by
  rw [Bands.processList.eq_def]
  dsimp only
  rw [hA]
  dsimp only
  rw [hc1]
  dsimp only
  rw [hc2]
  dsimp only
  rw [hS]

lemma processList_step {σ : Type} (cb : σ → List ℚ → Nat → List ℚ × σ)
    (count : Nat) (s : σ)
    {band band1 band2 r : Band} {rs rest1 : List Band}
    {low high low1 high1 out buffer : List ℚ} {s1 s2 : σ}
    (hA : band.analysis buffer = ((low, high), band1))
    (hR : Bands.processList cb (r :: rs) (count + 1) s low = some (low1, rest1, s1))
    (hc2 : cb s1 high count = (high1, s2))
    (hS : band1.synthesis low1 high1 buffer = (out, band2)) :
    Bands.processList cb (band :: r :: rs) count s buffer =
      some (out, band2 :: rest1, s2) := by
  rw [Bands.processList.eq_def]
  dsimp only
  rw [hA]
  dsimp only
  rw [hR]
  dsimp only
  rw [hc2]
  dsimp only
  rw [hS]

/-! ## The main reconstruction lemmas -/

lemma processList_fresh_const :
    ∀ (q m : Nat), 1 ≤ m → ∀ (a c : ℚ) (count k : Nat),
      k + 1 = m * 2 ^ (q + 1) →
      ∃ out : List ℚ,
        Bands.processList noopcb (List.replicate (q + 1) Band.new) count ()
            (a :: List.replicate k c) =
          some (out, List.replicate (q + 1) (settledBand c), ()) ∧
        out.length = m * 2 ^ (q + 1) ∧
        out.drop (2 ^ (q + 1)) = List.replicate (m * 2 ^ (q + 1) - 2 ^ (q + 1)) c := by
  intro q
  induction q with
  | zero =>
    intro m hm a c count k hk
    obtain ⟨mq, rfl⟩ : ∃ mq, m = mq + 1 := ⟨m - 1, by omega⟩
    have hk2 : k = 2 * mq + 1 := by
      rw [pow_one] at hk
      omega
    subst hk2
    have hA : Band.new.analysis (a :: List.replicate (2 * mq + 1) c) =
        (((1 / 2 * a + 1 / 2 * 0) :: List.replicate mq c,
          (-(1 / 2) * a + 1 / 2 * 0) :: List.replicate mq 0), settledBand c) :=
      analysis_shape Band.new 0 0 a c mq rfl rfl rfl rfl
    have hS : (settledBand c).synthesis
        ((1 / 2 * a + 1 / 2 * 0) :: List.replicate mq c)
        ((-(1 / 2) * a + 1 / 2 * 0) :: List.replicate mq 0)
        (a :: List.replicate (2 * mq + 1) c) =
        (blockMap ((1 / 2 * a + 1 / 2 * 0) :: List.replicate mq c)
          ((-(1 / 2) * a + 1 / 2 * 0) :: List.replicate mq 0), settledBand c) := by
      apply synthesis_blocks _ _ _ _ rfl rfl rfl rfl
      · simp
      · simp only [List.length_cons, List.length_replicate]
        omega
    have hP := processList_one noopcb count () hA rfl rfl hS
    have hbm : blockMap ((1 / 2 * a + 1 / 2 * 0) :: List.replicate mq c)
        ((-(1 / 2) * a + 1 / 2 * 0) :: List.replicate mq 0) =
        ((1 / 2 * a + 1 / 2 * 0) + (-(1 / 2) * a + 1 / 2 * 0)) ::
          ((1 / 2 * a + 1 / 2 * 0) - (-(1 / 2) * a + 1 / 2 * 0)) ::
          List.replicate (2 * mq) c := by
      rw [blockMap, blockMap_replicate]
    refine ⟨blockMap ((1 / 2 * a + 1 / 2 * 0) :: List.replicate mq c)
      ((-(1 / 2) * a + 1 / 2 * 0) :: List.replicate mq 0), ?_, ?_, ?_⟩
    · exact hP
    · rw [hbm]
      simp only [List.length_cons, List.length_replicate]
      rw [pow_one]
      omega
    · rw [hbm]
      rw [show (2 : Nat) ^ (0 + 1) = 1 + 1 from by norm_num]
      rw [List.drop_succ_cons, List.drop_succ_cons, List.drop_zero]
      congr 1
      omega
  | succ q ih =>
    intro m hm a c count k hk
    have hpow : (0 : Nat) < 2 ^ (q + 1) := pow_pos (by norm_num) (q + 1)
    have h2n : m * 2 ^ (q + 1 + 1) = 2 * (m * 2 ^ (q + 1)) := by
      rw [pow_succ]
      ring
    obtain ⟨nq, hnq⟩ : ∃ nq, m * 2 ^ (q + 1) = nq + 1 := by
      refine ⟨m * 2 ^ (q + 1) - 1, ?_⟩
      have : 1 ≤ m * 2 ^ (q + 1) := Nat.one_le_iff_ne_zero.mpr (by positivity)
      omega
    have hk2 : k = 2 * nq + 1 := by omega
    subst hk2
    have hA : Band.new.analysis (a :: List.replicate (2 * nq + 1) c) =
        (((1 / 2 * a + 1 / 2 * 0) :: List.replicate nq c,
          (-(1 / 2) * a + 1 / 2 * 0) :: List.replicate nq 0), settledBand c) :=
      analysis_shape Band.new 0 0 a c nq rfl rfl rfl rfl
    obtain ⟨low1, hR, hlen1, hdrop1⟩ :=
      ih m hm (1 / 2 * a + 1 / 2 * 0) c (count + 1) nq hnq.symm
    rw [List.replicate_succ (n := q)] at hR
    have hS : (settledBand c).synthesis low1
        ((-(1 / 2) * a + 1 / 2 * 0) :: List.replicate nq 0)
        (a :: List.replicate (2 * nq + 1) c) =
        (blockMap low1 ((-(1 / 2) * a + 1 / 2 * 0) :: List.replicate nq 0),
          settledBand c) := by
      apply synthesis_blocks _ _ _ _ rfl rfl rfl rfl
      · simp only [List.length_cons, List.length_replicate, hlen1]
        omega
      · simp only [List.length_cons, List.length_replicate, hlen1]
        omega
    have hP := processList_step noopcb count () hA hR rfl hS
    have hhlen : ((-(1 / 2) * a + 1 / 2 * 0) :: List.replicate nq 0).length = low1.length := by
      simp only [List.length_cons, List.length_replicate, hlen1]
      omega
    refine ⟨blockMap low1 ((-(1 / 2) * a + 1 / 2 * 0) :: List.replicate nq 0), ?_, ?_, ?_⟩
    · rw [List.replicate_succ (n := q + 1), List.replicate_succ (n := q)]
      rw [show settledBand c :: List.replicate (q + 1) (settledBand c) =
        List.replicate (q + 1 + 1) (settledBand c) from (List.replicate_succ ..).symm] at hP
      rw [List.replicate_succ (n := q + 1)] at hP
      exact hP
    · rw [blockMap_length low1 _ hhlen, hlen1, h2n]
    · -- split the low branch at the sub-bank latency and the high branch to match
      have htn : 2 ^ (q + 1) ≤ m * 2 ^ (q + 1) := Nat.le_mul_of_pos_left _ hm
      have hsplitL : low1 = low1.take (2 ^ (q + 1)) ++
          List.replicate (m * 2 ^ (q + 1) - 2 ^ (q + 1)) c := by
        conv_lhs => rw [← List.take_append_drop (2 ^ (q + 1)) low1]
        rw [hdrop1]
      have hsplitH : (-(1 / 2) * a + 1 / 2 * 0) :: List.replicate nq 0 =
          ((-(1 / 2) * a + 1 / 2 * 0) :: List.replicate (2 ^ (q + 1) - 1) 0) ++
            List.replicate (m * 2 ^ (q + 1) - 2 ^ (q + 1)) 0 := by
        rw [List.cons_append, ← List.replicate_add]
        congr 2
        omega
      have hlentake : (low1.take (2 ^ (q + 1))).length = 2 ^ (q + 1) := by
        rw [List.length_take, hlen1]
        omega
      have hlenq : ((-(1 / 2) * a + 1 / 2 * 0) ::
          List.replicate (2 ^ (q + 1) - 1) 0).length = (low1.take (2 ^ (q + 1))).length := by
        rw [hlentake]
        simp only [List.length_cons, List.length_replicate]
        omega
      rw [hsplitL, hsplitH, blockMap_append _ _ _ _ hlenq, blockMap_replicate]
      have hlenP : (blockMap (low1.take (2 ^ (q + 1)))
          ((-(1 / 2) * a + 1 / 2 * 0) :: List.replicate (2 ^ (q + 1) - 1) 0)).length =
          2 ^ (q + 1 + 1) := by
        rw [blockMap_length _ _ hlenq, hlentake, pow_succ]
        ring
      have hdropP : List.drop (2 ^ (q + 1 + 1))
          (blockMap (low1.take (2 ^ (q + 1)))
              ((-(1 / 2) * a + 1 / 2 * 0) :: List.replicate (2 ^ (q + 1) - 1) 0) ++
            List.replicate (2 * (m * 2 ^ (q + 1) - 2 ^ (q + 1))) c) =
          List.replicate (2 * (m * 2 ^ (q + 1) - 2 ^ (q + 1))) c := by
        rw [show (2 : Nat) ^ (q + 1 + 1) = (blockMap (low1.take (2 ^ (q + 1)))
            ((-(1 / 2) * a + 1 / 2 * 0) :: List.replicate (2 ^ (q + 1) - 1) 0)).length
          from hlenP.symm]
        exact List.drop_left _ _
      rw [hdropP]
      have hC : (2 : Nat) ^ (q + 1 + 1) = 2 * 2 ^ (q + 1) := by
        rw [pow_succ]
        ring
      congr 1
      omega

lemma processList_settled_const :
    ∀ (q m : Nat) (c : ℚ) (count : Nat),
      Bands.processList noopcb (List.replicate (q + 1) (settledBand c)) count ()
          (List.replicate (m * 2 ^ (q + 1)) c) =
        some (List.replicate (m * 2 ^ (q + 1)) c,
          List.replicate (q + 1) (settledBand c), ()) := by
  intro q
  induction q with
  | zero =>
    intro m c count
    have h2 : m * 2 ^ (0 + 1) = 2 * m := by
      rw [pow_one]
      ring
    rw [h2]
    have hA := analysis_settled (settledBand c) c m rfl rfl rfl rfl
    have hS : (settledBand c).synthesis (List.replicate m c) (List.replicate m 0)
        (List.replicate (2 * m) c) =
        (blockMap (List.replicate m c) (List.replicate m 0), settledBand c) :=
      synthesis_blocks _ _ _ _ rfl rfl rfl rfl (by simp) (by simp)
    have hP := processList_one noopcb count () hA rfl rfl hS
    rw [blockMap_replicate] at hP
    exact hP
  | succ q ih =>
    intro m c count
    have h2n : m * 2 ^ (q + 1 + 1) = 2 * (m * 2 ^ (q + 1)) := by
      rw [pow_succ]
      ring
    rw [h2n]
    have hA := analysis_settled (settledBand c) c (m * 2 ^ (q + 1)) rfl rfl rfl rfl
    have hR := ih m c (count + 1)
    rw [List.replicate_succ (n := q)] at hR
    have hS : (settledBand c).synthesis (List.replicate (m * 2 ^ (q + 1)) c)
        (List.replicate (m * 2 ^ (q + 1)) 0)
        (List.replicate (2 * (m * 2 ^ (q + 1))) c) =
        (blockMap (List.replicate (m * 2 ^ (q + 1)) c)
          (List.replicate (m * 2 ^ (q + 1)) 0), settledBand c) :=
      synthesis_blocks _ _ _ _ rfl rfl rfl rfl (by simp) (by simp)
    have hP := processList_step noopcb count () hA hR rfl hS
    rw [blockMap_replicate] at hP
    rw [List.replicate_succ (n := q + 1), List.replicate_succ (n := q)]
    exact hP

/-! ## Lemmas: callback order -/

lemma descRange_shift : ∀ (k c : Nat), descRange (c + 1) k ++ [c] = descRange c (k + 1) := by
  intro k
  induction k with
  | zero => intro c; rfl
  | succ k ih =>
    intro c
    rw [descRange, List.cons_append, ih, descRange]
    congr 1
    omega

lemma descRange_length : ∀ (k c : Nat), (descRange c k).length = k + 1 := by
  intro k
  induction k with
  | zero => intro c; rfl
  | succ k ih => intro c; rw [descRange, List.length_cons, ih]

lemma processList_log :
    ∀ (bl : List Band) (count : Nat) (s0 : List Nat) (xs : List ℚ), bl ≠ [] →
      ∃ out bl1, Bands.processList logcb bl count s0 xs =
        some (out, bl1, s0 ++ descRange count bl.length) := by
  intro bl
  induction bl with
  | nil => intro count s0 xs h; exact absurd rfl h
  | cons band rest ih =>
    intro count s0 xs _
    cases rest with
    | nil =>
      rcases hA : band.analysis xs with ⟨⟨low, high⟩, band1⟩
      rcases hS : band1.synthesis low high xs with ⟨out, band2⟩
      refine ⟨out, [band2], ?_⟩
      have h1 : logcb s0 low (count + 1) = (low, s0 ++ [count + 1]) := rfl
      have h2 : logcb (s0 ++ [count + 1]) high count =
          (high, (s0 ++ [count + 1]) ++ [count]) := rfl
      rw [processList_one logcb count s0 hA h1 h2 hS]
      rw [List.append_assoc]
      rfl
    | cons r rs =>
      rcases hA : band.analysis xs with ⟨⟨low, high⟩, band1⟩
      obtain ⟨low1, bl1, hR⟩ := ih (count + 1) s0 low (by simp)
      rcases hS : band1.synthesis low1 high xs with ⟨out, band2⟩
      refine ⟨out, band2 :: bl1, ?_⟩
      have h2 : logcb (s0 ++ descRange (count + 1) (r :: rs).length) high count =
          (high, (s0 ++ descRange (count + 1) (r :: rs).length) ++ [count]) := rfl
      rw [processList_step logcb count s0 hA hR h2 hS]
      rw [List.append_assoc, descRange_shift]
      rfl

/-! ## Lemmas: totality for a non-empty bank -/

lemma processList_isSome {σ : Type} (cb : σ → List ℚ → Nat → List ℚ × σ) :
    ∀ (bl : List Band) (count : Nat) (s : σ) (xs : List ℚ), bl ≠ [] →
      (Bands.processList cb bl count s xs).isSome := by
  intro bl
  induction bl with
  | nil => intro count s xs h; exact absurd rfl h
  | cons band rest ih =>
    intro count s xs _
    cases rest with
    | nil =>
      rcases hA : band.analysis xs with ⟨⟨low, high⟩, band1⟩
      rcases hc1 : cb s low (count + 1) with ⟨low1, s1⟩
      rcases hc2 : cb s1 high count with ⟨high1, s2⟩
      rcases hS : band1.synthesis low1 high1 xs with ⟨out, band2⟩
      rw [processList_one cb count s hA hc1 hc2 hS]
      rfl
    | cons r rs =>
      rcases hA : band.analysis xs with ⟨⟨low, high⟩, band1⟩
      have hrec := ih (count + 1) s low (by simp)
      obtain ⟨⟨low1, bl1, s1⟩, hR⟩ := Option.isSome_iff_exists.mp hrec
      rcases hc2 : cb s1 high count with ⟨high1, s2⟩
      rcases hS : band1.synthesis low1 high1 xs with ⟨out, band2⟩
      rw [processList_step cb count s hA hR hc2 hS]
      rfl

lemma process_of_processList {σ : Type} (cb : σ → List ℚ → Nat → List ℚ × σ)
    (b : Bands) (buffer : List ℚ) (s : σ) {out : List ℚ} {bl1 : List Band} {s1 : σ}
    (h : Bands.processList cb b.bands 0 s buffer = some (out, bl1, s1)) :
    Bands.process cb b buffer s = some (out, ⟨bl1⟩, s1) := by
  unfold Bands.process
  rw [h]

/-! ## Claim theorems -/

/-- C4: a fresh `UpSample(2, fill = 0)` applied to `[1, 2, 3]` yields
`1, 0, 2, 0, 3` over the five pulls the repository exercises (leaving the
sampler at phase `1` with the source exhausted), and applying the same
sampler instance to `[4, 5, 6]` then yields exactly `[0, 4, 0, 5, 0, 6, 0]`
before reporting exhaustion: the phase persists across the two
invocations.  (Pulling the first iterator once more would emit one further
fill `0` for the group begun by `3` before exhaustion is observed.) -/
theorem upsample_phase_persists :
    UpSampling.runFuel 5 (UpSampler.with_zero 2) ([1, 2, 3] : List Int) =
      ([1, 0, 2, 0, 3], [], ⟨2, 0, 1⟩) ∧
    (UpSampling.upRun
        (UpSampling.runFuel 5 (UpSampler.with_zero 2) ([1, 2, 3] : List Int)).2.2
        [4, 5, 6]).1 = [0, 4, 0, 5, 0, 6, 0] := by
  decide

/-- C5 (counterexample): `DownSample(2)` on the fresh sampler over
`[1, 2, 3]` outputs `[1, 3]`: the incomplete final group `[3]` contributes
its phase-0 element `3`, so the output is not `[1]` as "the partial group
yields no output element" would demand. -/
theorem downsample_partial_group_counterexample :
    DownSampling.run (DownSampler.new 2) ([1, 2, 3] : List Int) = ([1, 3], ⟨2, 1⟩) ∧
    ([1, 3] : List Int) ≠ [1] := by
  decide

/-- C5 (amended): one invocation of down-sampling outputs exactly the
source elements sitting at phase 0 (so an incomplete final group does
contribute its phase-0 element when that element was consumed, and nothing
else); there is no padding, and the persisted phase `(count + len) % scale`
is all that carries to the next invocation — no element of a partial group
is re-emitted later. -/
theorem downsample_run_characterisation {α : Type} (s : DownSampler) (src : List α)
    (hs : 0 < s.scale) (hc : s.count < s.scale) :
    DownSampling.run s src =
      (dsKeep s.scale s.count src,
        ⟨s.scale, (s.count + src.length) % s.scale⟩) :=
  down_run_spec s src hs hc

/-- C5 (witness): the characterisation evaluated on a concrete call. -/
theorem downsample_run_characterisation_witness :
    0 < 2 ∧
    DownSampling.run (DownSampler.new 2) ([4, 5, 6] : List Int) =
      (dsKeep 2 0 [4, 5, 6], ⟨2, (0 + 3) % 2⟩) ∧
    dsKeep 2 0 ([4, 5, 6] : List Int) = [4, 6] :=
  ⟨by norm_num,
    downsample_run_characterisation (DownSampler.new 2) [4, 5, 6] (by decide) (by decide),
    by decide⟩

/-- C9: `UpSampling::next` advances the phase counter exactly when an item
is produced: a `none` result (source exhausted at phase 0) leaves the
sampler unchanged, and any produced item moves the counter to
`(count + 1) % scale`.  `0 < scale` reflects that the Rust `%` panics at
scale 0. -/
theorem upsampling_next_phase_advance {α : Type} (s : UpSampler α) (src : List α)
    (_hs : 0 < s.scale) :
    ((UpSampling.next s src).1 = none →
      (UpSampling.next s src).2.2 = s ∧ s.count % s.scale = 0 ∧ src = []) ∧
    (∀ x, (UpSampling.next s src).1 = some x →
      (UpSampling.next s src).2.2.count = (s.count + 1) % s.scale) := by
  by_cases h : s.count % s.scale = 0 <;> cases src <;>
    simp [UpSampling.next, h]

/-- C9 (witness): the phase-advance rule evaluated on a concrete
exhausted pull. -/
theorem upsampling_next_phase_advance_witness :
    0 < 2 ∧ (UpSampling.next (⟨2, 0, 0⟩ : UpSampler Int) []).2.2 = ⟨2, 0, 0⟩ :=
  ⟨by norm_num,
    ((upsampling_next_phase_advance (⟨2, 0, 0⟩ : UpSampler Int) [] (by norm_num)).1
      (by decide)).1⟩

/-- C10: a bank with `N = 0` stages panics on any `process` call (the
recursion indexes `bands[0]` in an empty array, modelled as `none`) for
every callback and every buffer, while every bank with at least one stage
completes every `process` call. -/
theorem process_empty_bank_panics (σ : Type) (cb : σ → List ℚ → Nat → List ℚ × σ)
    (s : σ) :
    (∀ xs : List ℚ, Bands.process cb (Bands.new 0) xs s = none) ∧
    (∀ N, 1 ≤ N → ∀ xs : List ℚ, (Bands.process cb (Bands.new N) xs s).isSome) := by
  constructor
  · intro xs
    rfl
  · intro N hN xs
    have h := processList_isSome cb (List.replicate N Band.new) 0 s xs
      (by simp [List.replicate_eq_nil_iff]; omega)
    obtain ⟨⟨out, bl1, s1⟩, hP⟩ := Option.isSome_iff_exists.mp h
    rw [process_of_processList cb (Bands.new N) xs s hP]
    rfl

/-- C10 (witness): the empty bank panics and the one-stage bank completes,
at a concrete buffer. -/
theorem process_empty_bank_panics_witness :
    Bands.process noopcb (Bands.new 0) [(1 : ℚ)] () = none ∧
    (Bands.process noopcb (Bands.new 1) [(1 : ℚ)] ()).isSome :=
  ⟨(process_empty_bank_panics Unit noopcb ()).1 [1],
    (process_empty_bank_panics Unit noopcb ()).2 1 (by norm_num) [1]⟩

/-- C6 (counterexample): `delay()` is `2_i32.pow(N) as usize`; at `N = 31`
the `i32` power overflows, so a release build returns
`18446744071562067968` (and a debug build panics) instead of `2 ^ 31`. -/
theorem delay_overflow_counterexample :
    (Bands.new 31).delay ≠ 2 ^ 31 ∧
    (Bands.new 31).delay = 18446744071562067968 := by
  decide

/-- C6 (amended): for every band count `N ≤ 30` — the whole range on which
the `i32` arithmetic cannot overflow — `delay()` returns exactly `2 ^ N`.
In the model `delay` is a function of the bank alone and returns no updated
state, mirroring the `&self` receiver: it cannot mutate the bank, and
repeated calls trivially agree. -/
theorem delay_eq_pow (N : Nat) (h : N ≤ 30) : (Bands.new N).delay = 2 ^ N := by
  unfold Bands.delay Bands.new i32AsUsize wrapI32
  rw [List.length_replicate]
  have h1 : N % 2 ^ 32 = N := Nat.mod_eq_of_lt (by omega)
  rw [h1]
  have hle : (2 : Int) ^ N ≤ 2 ^ 30 := pow_le_pow_right₀ (by norm_num) h
  have h2 : ((2 : Int) ^ N + 2 ^ 31) % 2 ^ 32 = 2 ^ N + 2 ^ 31 := by
    apply Int.emod_eq_of_lt
    · positivity
    · have : ((2 : Int) ^ 30) + 2 ^ 31 < 2 ^ 32 := by norm_num
      linarith
  rw [h2]
  have h3 : (2 : Int) ^ N + 2 ^ 31 - 2 ^ 31 = 2 ^ N := by ring
  rw [h3]
  have h4 : ((2 : Int) ^ N) % 2 ^ 64 = 2 ^ N := by
    apply Int.emod_eq_of_lt
    · positivity
    · have : ((2 : Int) ^ 30) < 2 ^ 64 := by norm_num
      linarith
  rw [h4]
  rw [show ((2 : Int) ^ N) = ((2 ^ N : Nat) : Int) from by push_cast; ring]
  exact Int.toNat_natCast _

/-- C6 (witness): the amended claim at `N = 3`. -/
theorem delay_eq_pow_witness : 3 ≤ 30 ∧ (Bands.new 3).delay = 8 :=
  ⟨by norm_num, by simpa using delay_eq_pow 3 (by norm_num)⟩

/-- C7 (counterexample): a second `analysis` call on the same stage after
an odd-length call has persisted phase 1 in both downsamplers returns a
low branch of length `0`, not `ceil(1 / 2) = 1`. -/
theorem analysis_length_counterexample :
    (Band.analysis (Band.analysis Band.new [1]).2 [1]).1.1.length = 0 ∧
    (0 : Nat) ≠ (1 + 1) / 2 := by
  decide

/-- C7 (amended): the branch lengths of `Stage::analysis` follow the
decimation-by-2 rule relative to each downsampler's persisted phase: a
branch whose sampler starts at phase 0 (in particular on a fresh stage, or
whenever the total length previously consumed is even) has length
`ceil(n / 2)`; with persisted phase 1 it has length `floor(n / 2)`. -/
theorem analysis_branch_lengths (b : Band) (xs : List ℚ)
    (hs1 : b.low_downsampler.scale = 2) (hc1 : b.low_downsampler.count < 2)
    (hs2 : b.high_downsampler.scale = 2) (hc2 : b.high_downsampler.count < 2) :
    ((Band.analysis b xs).1.1.length =
      if b.low_downsampler.count = 0 then (xs.length + 1) / 2 else xs.length / 2) ∧
    ((Band.analysis b xs).1.2.length =
      if b.high_downsampler.count = 0 then (xs.length + 1) / 2 else xs.length / 2) := by
  unfold Band.analysis
  rw [analysisFilter_eq]
  dsimp only
  have hr1 := down_run_spec b.low_downsampler (b.in_lowpass_filter.consumeList xs).1
    (by omega) (by omega)
  have hr2 := down_run_spec b.high_downsampler (b.in_highpass_filter.consumeList xs).1
    (by omega) (by omega)
  rw [hr1, hr2]
  dsimp only
  constructor
  · rw [hs1]
    rcases (by omega : b.low_downsampler.count = 0 ∨ b.low_downsampler.count = 1) with h | h <;>
      rw [h] <;> simp only [if_pos, if_neg, one_ne_zero, reduceIte]
    · rw [(dsKeep_two_length _).1, consumeList_length]
    · rw [(dsKeep_two_length _).2, consumeList_length]
  · rw [hs2]
    rcases (by omega : b.high_downsampler.count = 0 ∨ b.high_downsampler.count = 1) with h | h <;>
      rw [h] <;> simp only [if_pos, if_neg, one_ne_zero, reduceIte]
    · rw [(dsKeep_two_length _).1, consumeList_length]
    · rw [(dsKeep_two_length _).2, consumeList_length]

/-- C7 (witness): the amended rule on a fresh stage with a 3-sample input:
the low branch has length `ceil(3 / 2) = 2`. -/
theorem analysis_branch_lengths_witness :
    Band.new.low_downsampler.scale = 2 ∧ Band.new.low_downsampler.count < 2 ∧
    (Band.analysis Band.new [1, 2, 3]).1.1.length = 2 := by
  refine ⟨rfl, by decide, ?_⟩
  have h := (analysis_branch_lengths Band.new [1, 2, 3] rfl (by decide) rfl (by decide)).1
  simpa using h

/-- C8: `Stage::synthesis` raises no error on mismatched lengths (it is a
total function) and silently truncates to the shortest producer: the
output keeps its length, and every element at or beyond
`min(|upsampled low stream|, |upsampled high stream|, |out|)` is left
unchanged. -/
theorem synthesis_truncates_to_shortest (b : Band) (low high out : List ℚ)
    (h1 : 0 < b.low_upsampler.scale) (h2 : 0 < b.high_upsampler.scale) :
    (Band.synthesis b low high out).1.length = out.length ∧
    (Band.synthesis b low high out).1.drop
        (min (min (UpSampling.upLen b.low_upsampler low)
          (UpSampling.upLen b.high_upsampler high)) out.length) =
      out.drop
        (min (min (UpSampling.upLen b.low_upsampler low)
          (UpSampling.upLen b.high_upsampler high)) out.length) := by
  unfold Band.synthesis
  have h := synthLoop_frame out b.low_upsampler low b.high_upsampler high
    b.out_lowpass_filter b.out_highpass_filter h1 h2
  rcases hX : Band.synthLoop out b.low_upsampler low b.high_upsampler high
      b.out_lowpass_filter b.out_highpass_filter with ⟨out1, us2, vs2, fl2, fh2⟩
  rw [hX] at h
  exact h

/-- C8 (witness): mismatched lengths `|low| = 1`, `|high| = 2`, `|out| = 5`:
the upsampled low stream has length 2, so only the first two output slots
are overwritten and `out[2:]` is untouched. -/
theorem synthesis_truncates_to_shortest_witness :
    0 < Band.new.low_upsampler.scale ∧
    (Band.synthesis Band.new [1] [2, 3] [0, 0, 0, 0, 0]).1.length = 5 ∧
    (Band.synthesis Band.new [1] [2, 3] [0, 0, 0, 0, 0]).1.drop
        (min (min (UpSampling.upLen Band.new.low_upsampler [1])
          (UpSampling.upLen Band.new.high_upsampler [2, 3]))
          ([0, 0, 0, 0, 0] : List ℚ).length) =
      ([0, 0, 0, 0, 0] : List ℚ).drop
        (min (min (UpSampling.upLen Band.new.low_upsampler [1])
          (UpSampling.upLen Band.new.high_upsampler [2, 3]))
          ([0, 0, 0, 0, 0] : List ℚ).length) := by
  refine ⟨by decide, ?_, ?_⟩
  · exact (synthesis_truncates_to_shortest Band.new [1] [2, 3] [0, 0, 0, 0, 0]
      (by decide) (by decide)).1
  · exact (synthesis_truncates_to_shortest Band.new [1] [2, 3] [0, 0, 0, 0, 0]
      (by decide) (by decide)).2

/-- C2 (counterexample): for `N = 1` and the non-constant input
`[1, 0, 0, 0]` (length a multiple of `2^1`), a fresh bank with a no-op
callback produces `[0, 1, 0, 0]` — a one-sample shift — so
`output[delay():] = [0, 0]` differs from `input[:L - delay()] = [1, 0]`:
the identity-up-to-`2^N` claim fails for arbitrary inputs. -/
theorem process_identity_arbitrary_counterexample :
    (Bands.new 1).delay = 2 ∧
    (∃ r : List ℚ × Bands × Unit,
      Bands.process noopcb (Bands.new 1) [1, 0, 0, 0] () = some r ∧
      r.1.drop 2 = [0, 0]) ∧
    ([0, 0] : List ℚ) ≠ ([1, 0, 0, 0] : List ℚ).take (4 - 2) := by
  refine ⟨by decide, ?_, by decide⟩
  obtain ⟨out, hP, hlen, hdrop⟩ :=
    processList_fresh_const 0 2 (by norm_num) 1 0 0 3 (by norm_num)
  have hin : (1 : ℚ) :: List.replicate 3 0 = [1, 0, 0, 0] := rfl
  rw [hin] at hP
  refine ⟨(out, ⟨List.replicate 1 (settledBand 0)⟩, ()),
    process_of_processList noopcb (Bands.new 1) _ () hP, ?_⟩
  have e1 : (2 : Nat) * 2 ^ (0 + 1) - 2 ^ (0 + 1) = 2 := by norm_num
  have e2 : (2 : Nat) ^ (0 + 1) = 2 := by norm_num
  rw [e1, e2] at hdrop
  rw [hdrop]
  decide

/-- C2 (amended): restricted to constant-valued buffers — the case the
specification's own guarantee describes — the claim holds: for every band
count `N ≥ 1` and every buffer of `m * 2^N` copies of any value `c`, a
fresh bank with a no-op callback returns a buffer of the same length with
`output[2^N:] = input[:L - 2^N]`.  (`2^N` is the true latency; `delay()`
returns it for every `N ≤ 30`.) -/
theorem process_identity_constant_input (N m : Nat) (hN : 1 ≤ N) (hm : 1 ≤ m) (c : ℚ) :
    ∃ r : List ℚ × Bands × Unit,
      Bands.process noopcb (Bands.new N) (List.replicate (m * 2 ^ N) c) () = some r ∧
      r.1.length = m * 2 ^ N ∧
      r.1.drop (2 ^ N) = (List.replicate (m * 2 ^ N) c).take (m * 2 ^ N - 2 ^ N) := by
  obtain ⟨q, rfl⟩ : ∃ q, N = q + 1 := ⟨N - 1, by omega⟩
  have hpow : (0 : Nat) < 2 ^ (q + 1) := pow_pos (by norm_num) _
  have hlen1 : 1 ≤ m * 2 ^ (q + 1) := Nat.mul_pos (by omega) hpow
  obtain ⟨out, hP, hlen, hdrop⟩ :=
    processList_fresh_const q m hm c c 0 (m * 2 ^ (q + 1) - 1) (by omega)
  have hin : (c : ℚ) :: List.replicate (m * 2 ^ (q + 1) - 1) c =
      List.replicate (m * 2 ^ (q + 1)) c := by
    rw [← List.replicate_succ]
    congr 1
    omega
  rw [hin] at hP
  refine ⟨(out, ⟨List.replicate (q + 1) (settledBand c)⟩, ()), ?_, hlen, ?_⟩
  · exact process_of_processList noopcb (Bands.new (q + 1)) _ () hP
  · rw [hdrop, List.take_replicate]
    congr 1
    omega

/-- C2 (witness): the amended claim at `N = 1`, `m = 2`, `c = 3`. -/
theorem process_identity_constant_input_witness :
    1 ≤ 1 ∧ 1 ≤ 2 ∧
    ∃ r : List ℚ × Bands × Unit,
      Bands.process noopcb (Bands.new 1) (List.replicate (2 * 2 ^ 1) 3) () = some r ∧
      r.1.length = 2 * 2 ^ 1 ∧
      r.1.drop (2 ^ 1) = (List.replicate (2 * 2 ^ 1) (3 : ℚ)).take (2 * 2 ^ 1 - 2 ^ 1) :=
  ⟨le_rfl, by norm_num, process_identity_constant_input 1 2 le_rfl (by norm_num) 3⟩

/-- C1: scenario A — a fresh bank with `N = 3` on 128 samples of value 1
with a no-op callback has `delay() = 8` and leaves `output[8:]` equal to
120 copies of 1; a second `process` call on the same bank instance with a
fresh all-ones buffer reproduces the buffer exactly (steady state).  The
element type is modelled as `ℚ`; on these dyadic values the `f64`
arithmetic of the source is exact. -/
theorem scenario_a_reconstruction :
    (Bands.new 3).delay = 8 ∧
    ∃ r1 : List ℚ × Bands × Unit,
      Bands.process noopcb (Bands.new 3) (List.replicate 128 1) () = some r1 ∧
      r1.1.drop 8 = List.replicate 120 1 ∧
      r1.1.length = 128 ∧
      ∃ r2 : List ℚ × Bands × Unit,
        Bands.process noopcb r1.2.1 (List.replicate 128 1) r1.2.2 = some r2 ∧
        r2.1 = List.replicate 128 1 := by
  refine ⟨by decide, ?_⟩
  obtain ⟨out, hP, hlen, hdrop⟩ :=
    processList_fresh_const 2 16 (by norm_num) 1 1 0 127 (by norm_num)
  have hin : (1 : ℚ) :: List.replicate 127 1 = List.replicate 128 1 := by
    rw [← List.replicate_succ]
  rw [hin] at hP
  have hP2 := process_of_processList noopcb (Bands.new 3) (List.replicate 128 1) () hP
  refine ⟨(out, ⟨List.replicate (2 + 1) (settledBand 1)⟩, ()), hP2, ?_, ?_, ?_⟩
  · simpa using hdrop
  · simpa using hlen
  · have h2 := processList_settled_const 2 16 1 0
    have h128 : (16 : Nat) * 2 ^ (2 + 1) = 128 := by norm_num
    rw [h128] at h2
    have hP3 := process_of_processList noopcb
      (⟨List.replicate (2 + 1) (settledBand 1)⟩ : Bands) (List.replicate 128 1) () h2
    exact ⟨(List.replicate 128 1, ⟨List.replicate (2 + 1) (settledBand 1)⟩, ()), hP3, rfl⟩

/-- C3 (counterexample): at band count `N = 0` a `process` call panics
(models as `none`) before any callback fires, so the callback is not
invoked `N + 1 = 1` times: the claim fails for `N = 0`. -/
theorem callback_count_counterexample :
    Bands.process logcb (Bands.new 0) [(1 : ℚ)] [] = none := rfl

/-- C3 (amended): for every band count `N ≥ 1` and every buffer, one
`process` call invokes the callback exactly `N + 1` times, with band
indices in the order `N, N - 1, ..., 0` (residual band first, then detail
bands deepest-first); for `N = 2` the recorded indices are `[2, 1, 0]`. -/
theorem callback_order (N : Nat) (hN : 1 ≤ N) (xs : List ℚ) :
    ∃ out bands1,
      Bands.process logcb (Bands.new N) xs [] = some (out, bands1, descRange 0 N) ∧
      (descRange 0 N).length = N + 1 := by
  obtain ⟨q, rfl⟩ : ∃ q, N = q + 1 := ⟨N - 1, by omega⟩
  obtain ⟨out, bl1, hP⟩ := processList_log (List.replicate (q + 1) Band.new) 0 [] xs (by simp)
  simp only [List.nil_append, List.length_replicate] at hP
  exact ⟨out, ⟨bl1⟩, process_of_processList logcb (Bands.new (q + 1)) xs [] hP,
    descRange_length ..⟩

/-- C3 (witness): the callback order at `N = 2` is `[2, 1, 0]`. -/
theorem callback_order_witness :
    1 ≤ 2 ∧ ∃ out bands1,
      Bands.process logcb (Bands.new 2) [(5 : ℚ)] [] = some (out, bands1, [2, 1, 0]) ∧
      ([2, 1, 0] : List Nat).length = 2 + 1 := by
  refine ⟨by norm_num, ?_⟩
  obtain ⟨out, b1, h1, h2⟩ := callback_order 2 (by norm_num) [5]
  rw [show descRange 0 2 = [2, 1, 0] from rfl] at h1
  exact ⟨out, b1, h1, rfl⟩
